import Mathlib

/-!
Verification development for the genland terrain pipeline (Goxel port of
Tom Dobrowolski / Ken Silverman's GENLAND, src/camera.c).

The C code is shallowly embedded: C `long` becomes `ℤ`, C `unsigned char`
becomes `ℕ` (bounded) or `Fin 256`, C `float`/`double` becomes `ℚ`
(floating-point literals are idealized as the rationals they denote) and,
where the code calls `sin`, `ℝ` with `Real.sin`.  Imperative loops become
folds or structural recursions; arrays become functions or lists.
-/

namespace Genland

/-! ## Wu color quantizer (camera.c lines 658-946)

`long` moment tables are `Tbl`, the `float` m2 table is `TblQ`.  The C code
indexes flat arrays by `r*(33*33)+g*33+b`; we keep the three coordinates
separate, which is the same data addressed the same way. -/

abbrev Tbl := ℕ → ℕ → ℕ → ℤ

abbrev TblQ := ℕ → ℕ → ℕ → ℚ

/-- Quantizer box, `typedef struct { long r0, r1, g0, g1, b0, b1, vol; } box;`
(camera.c line 659).  Coordinates stay in 0..32 so we use `ℕ`; `vol` is a
`long` expression so we keep it `ℤ`. -/
structure Box where
  r0 : ℕ
  r1 : ℕ
  g0 : ℕ
  g1 : ℕ
  b0 : ℕ
  b1 : ℕ
  vol : ℤ
deriving DecidableEq

instance : Inhabited Box := ⟨⟨0, 0, 0, 0, 0, 0, 0⟩⟩

/-- The five moment tables (the globals `wt, mr, mg, mb, m2` of camera.c
line 663-664), bundled as one record since we pass them explicitly. -/
structure Moments where
  mrT : Tbl
  mgT : Tbl
  mbT : Tbl
  wtT : Tbl
  m2T : TblQ

/-- Channel extraction in `Hist3d`: `r = (lptr[x]>>16)&255` etc.
A pixel is the nonnegative 32-bit value read from the image. -/
def pixR (p : ℕ) : ℕ := p / 65536 % 256

def pixG (p : ℕ) : ℕ := p / 256 % 256

def pixB (p : ℕ) : ℕ := p % 256

/-- Histogram cell of a pixel: `i = ((r>>3)+1)*(33*33) + ((g>>3)+1)*33 + ((b>>3)+1)`
(camera.c line 681), kept as the coordinate triple. -/
def histCell (p : ℕ) : ℕ × ℕ × ℕ := (pixR p / 8 + 1, pixG p / 8 + 1, pixB p / 8 + 1)

/-- Add `v` to one cell of an integer table (the `vwt[i]++; vmr[i] += r; ...`
updates of `Hist3d`). -/
def bumpZ (t : Tbl) (c : ℕ × ℕ × ℕ) (v : ℤ) : Tbl :=
  fun r g b => if r = c.1 ∧ g = c.2.1 ∧ b = c.2.2 then t r g b + v else t r g b

/-- Add `v` to one cell of a rational table (the `m2[i] += ...` update). -/
def bumpQ (t : TblQ) (c : ℕ × ℕ × ℕ) (v : ℚ) : TblQ :=
  fun r g b => if r = c.1 ∧ g = c.2.1 ∧ b = c.2.2 then t r g b + v else t r g b

/-- One integer accumulator of `Hist3d` (camera.c lines 668-688) over a pixel
list: the C code fills all five tables in a single pass over the image; each
table's content is this fold with the appropriate per-pixel increment.
Repeated `genpal_addhist` calls accumulate into the same tables, which is the
fold over the concatenation of the images' pixel lists. -/
def histFold (f : ℕ → ℤ) (ps : List ℕ) : Tbl :=
  ps.foldl (fun t p => bumpZ t (histCell p) (f p)) (fun _ _ _ => 0)

/-- `vwt[i]++` accumulator. -/
def Hist3dWt (ps : List ℕ) : Tbl := histFold (fun _ => 1) ps

/-- `vmr[i] += r` accumulator. -/
def Hist3dMr (ps : List ℕ) : Tbl := histFold (fun p => (pixR p : ℤ)) ps

/-- `vmg[i] += g` accumulator. -/
def Hist3dMg (ps : List ℕ) : Tbl := histFold (fun p => (pixG p : ℤ)) ps

/-- `vmb[i] += b` accumulator. -/
def Hist3dMb (ps : List ℕ) : Tbl := histFold (fun p => (pixB p : ℤ)) ps

/-- `m2[i] += (float)(sq[r]+sq[g]+sq[b])` accumulator. -/
def Hist3dM2 (ps : List ℕ) : TblQ :=
  ps.foldl
    (fun t p => bumpQ t (histCell p)
      ((pixR p * pixR p + pixG p * pixG p + pixB p * pixB p : ℕ) : ℚ))
    (fun _ _ _ => 0)

/-- Running b-accumulator of `M3d` (camera.c lines 696-731): `line` after the
inner loop has processed b entries of row (r,g). -/
def m3dLine {α : Type} [AddCommMonoid α] (raw : ℕ → ℕ → ℕ → α) (r g : ℕ) : ℕ → α
  | 0 => 0
  | b + 1 => m3dLine raw r g b + raw r g (b + 1)

/-- Running gb-accumulator of `M3d`: `area[b]` after g rows of plane r have
been folded in (`area[b] += line`). -/
def m3dArea {α : Type} [AddCommMonoid α] (raw : ℕ → ℕ → ℕ → α) (r : ℕ) : ℕ → ℕ → α
  | 0, _ => 0
  | g + 1, b => m3dArea raw r g b + m3dLine raw r (g + 1) b

/-- Final in-place value written by `M3d`: `vwt[ind1] = vwt[ind2] + area[b]`
with `ind2 = [r-1][g][b]`; row 0 is never written and keeps its raw value. -/
def m3dOut {α : Type} [AddCommMonoid α] (raw : ℕ → ℕ → ℕ → α) : ℕ → ℕ → ℕ → α
  | 0, g, b => raw 0 g b
  | r + 1, g, b => m3dOut raw r g b + m3dArea raw (r + 1) g b

/-- The moment conversion `M3d` (camera.c lines 696-731) on an integer table. -/
def M3d (raw : Tbl) : Tbl := fun r g b => m3dOut raw r g b

/-- The moment conversion on the rational `m2` table. -/
def M3dQ (raw : TblQ) : TblQ := fun r g b => m3dOut raw r g b

/-- `Vol` (camera.c lines 734-740): sum over a box of a statistic, by
inclusion-exclusion over the 8 corners of the moment table. -/
def Vol (cube : Box) (mmt : Tbl) : ℤ :=
  mmt cube.r1 cube.g1 cube.b1 - mmt cube.r1 cube.g1 cube.b0
    - mmt cube.r1 cube.g0 cube.b1 + mmt cube.r1 cube.g0 cube.b0
    - mmt cube.r0 cube.g1 cube.b1 + mmt cube.r0 cube.g1 cube.b0
    + mmt cube.r0 cube.g0 cube.b1 - mmt cube.r0 cube.g0 cube.b0

/-- `Bot` (camera.c lines 745-758).  The C `default:` arm is
`__builtin_unreachable()` followed by a dead `return 1`, which we keep. -/
def Bot (cube : Box) (dir : ℕ) (mmt : Tbl) : ℤ :=
  match dir with
  | 2 => -mmt cube.r0 cube.g1 cube.b1 + mmt cube.r0 cube.g1 cube.b0
      + mmt cube.r0 cube.g0 cube.b1 - mmt cube.r0 cube.g0 cube.b0
  | 1 => -mmt cube.r1 cube.g0 cube.b1 + mmt cube.r1 cube.g0 cube.b0
      + mmt cube.r0 cube.g0 cube.b1 - mmt cube.r0 cube.g0 cube.b0
  | 0 => -mmt cube.r1 cube.g1 cube.b0 + mmt cube.r1 cube.g0 cube.b0
      + mmt cube.r0 cube.g1 cube.b0 - mmt cube.r0 cube.g0 cube.b0
  | _ => 1

/-- `Top` (camera.c lines 761-774). -/
def Top (cube : Box) (dir : ℕ) (pos : ℕ) (mmt : Tbl) : ℤ :=
  match dir with
  | 2 => mmt pos cube.g1 cube.b1 - mmt pos cube.g1 cube.b0
      - mmt pos cube.g0 cube.b1 + mmt pos cube.g0 cube.b0
  | 1 => mmt cube.r1 pos cube.b1 - mmt cube.r1 pos cube.b0
      - mmt cube.r0 pos cube.b1 + mmt cube.r0 pos cube.b0
  | 0 => mmt cube.r1 cube.g1 pos - mmt cube.r1 cube.g0 pos
      - mmt cube.r0 cube.g1 pos + mmt cube.r0 cube.g0 pos
  | _ => 1

/-- `Var` (camera.c lines 777-789), the weighted variance of a box; `float`
arithmetic is idealized as `ℚ` (division by a zero weight, which the C code
never reaches on the boxes it queries, is the total `ℚ` division). -/
def Var (M : Moments) (cube : Box) : ℚ :=
  let xx := M.m2T cube.r1 cube.g1 cube.b1 - M.m2T cube.r1 cube.g1 cube.b0
      - M.m2T cube.r1 cube.g0 cube.b1 + M.m2T cube.r1 cube.g0 cube.b0
      - M.m2T cube.r0 cube.g1 cube.b1 + M.m2T cube.r0 cube.g1 cube.b0
      + M.m2T cube.r0 cube.g0 cube.b1 - M.m2T cube.r0 cube.g0 cube.b0
  let dr : ℚ := (Vol cube M.mrT : ℚ)
  let dg : ℚ := (Vol cube M.mgT : ℚ)
  let db : ℚ := (Vol cube M.mbT : ℚ)
  xx - (dr * dr + dg * dg + db * db) / (Vol cube M.wtT : ℚ)

/-- `Maximize` (camera.c lines 794-825): scan cut candidates `i` in
`[first, last)`, returning the best score (`float`, idealized `ℚ`) and the
cut (`long`, `-1` when none was legal). -/
def Maximize (M : Moments) (cube : Box) (dir : ℕ) (first last : ℕ)
    (wr wg wb ww : ℤ) : ℚ × ℤ :=
  let br := Bot cube dir M.mrT
  let bg := Bot cube dir M.mgT
  let bb := Bot cube dir M.mbT
  let bw := Bot cube dir M.wtT
  (List.range' first (last - first)).foldl
    (fun acc i =>
      let hr := br + Top cube dir i M.mrT
      let hg := bg + Top cube dir i M.mgT
      let hb := bb + Top cube dir i M.mbT
      let hw := bw + Top cube dir i M.wtT
      if hw = 0 then acc else
      let f : ℚ := ((hr * hr + hg * hg + hb * hb : ℤ) : ℚ) / (hw : ℚ)
      let hr2 := wr - hr
      let hg2 := wg - hg
      let hb2 := wb - hb
      let hw2 := ww - hw
      if hw2 = 0 then acc else
      let f2 := f + ((hr2 * hr2 + hg2 * hg2 + hb2 * hb2 : ℤ) : ℚ) / (hw2 : ℚ)
      if acc.1 < f2 then (f2, (i : ℤ)) else acc)
    (0, -1)

/-- The cached volume written by `Cut` after a split:
`set->vol = (set->r1-set->r0) * (set->g1-set->g0) * (set->b1-set->b0)`. -/
def volOf (r0 r1 g0 g1 b0 b1 : ℕ) : ℤ :=
  ((r1 : ℤ) - r0) * ((g1 : ℤ) - g0) * ((b1 : ℤ) - b0)

/-- The `switch (dir)` box construction of `Cut` (camera.c lines 845-856),
including the recomputation of both `vol` fields.  Only called with
`dir` in 0..2; the `_` arm mirrors `dir = 0`. -/
def mkCut (dir : ℕ) (s : Box) (c : ℕ) : Box × Box :=
  match dir with
  | 2 => (⟨s.r0, c, s.g0, s.g1, s.b0, s.b1, volOf s.r0 c s.g0 s.g1 s.b0 s.b1⟩,
      ⟨c, s.r1, s.g0, s.g1, s.b0, s.b1, volOf c s.r1 s.g0 s.g1 s.b0 s.b1⟩)
  | 1 => (⟨s.r0, s.r1, s.g0, c, s.b0, s.b1, volOf s.r0 s.r1 s.g0 c s.b0 s.b1⟩,
      ⟨s.r0, s.r1, c, s.g1, s.b0, s.b1, volOf s.r0 s.r1 c s.g1 s.b0 s.b1⟩)
  | _ => (⟨s.r0, s.r1, s.g0, s.g1, s.b0, c, volOf s.r0 s.r1 s.g0 s.g1 s.b0 c⟩,
      ⟨s.r0, s.r1, s.g0, s.g1, c, s.b1, volOf s.r0 s.r1 s.g0 s.g1 c s.b1⟩)

/-- `Cut` (camera.c lines 827-858).  `none` models `return 0` (box cannot be
split); `some (set1', set2)` models the in-place update of `set1` and the
write of `set2`.  In the C code only the r-direction checks `cutr < 0`; the
g/b branches use their cut unconditionally (we prove separately that those
cuts are then in range.  Were the dead `cut = -1` case taken, `Int.toNat`
would read it as 0, which no reachable call does). -/
def Cut (M : Moments) (set1 : Box) : Option (Box × Box) :=
  let wr := Vol set1 M.mrT
  let wg := Vol set1 M.mgT
  let wb := Vol set1 M.mbT
  let ww := Vol set1 M.wtT
  let pr := Maximize M set1 2 (set1.r0 + 1) set1.r1 wr wg wb ww
  let pg := Maximize M set1 1 (set1.g0 + 1) set1.g1 wr wg wb ww
  let pb := Maximize M set1 0 (set1.b0 + 1) set1.b1 wr wg wb ww
  if pg.1 ≤ pr.1 ∧ pb.1 ≤ pr.1 then
    if pr.2 < 0 then none else some (mkCut 2 set1 pr.2.toNat)
  else if pr.1 ≤ pg.1 ∧ pb.1 ≤ pg.1 then some (mkCut 1 set1 pg.2.toNat)
  else some (mkCut 0 set1 pb.2.toNat)

/-- `vv[k] = (cube[k].vol > 1) ? Var(&cube[k]) : 0.0` (camera.c lines 916-917). -/
def vvOf (M : Moments) (b : Box) : ℚ := if 1 < b.vol then Var M b else 0

/-- The `n = 0; f = vv[0]; for(k=1;k<=i;k++) if (vv[k] > f) ...` scan of
genpal (camera.c lines 924-926): first index of the maximum. -/
def argmaxGo : ℕ → ℕ → ℚ → List ℚ → ℕ × ℚ
  | _, bi, bv, [] => (bi, bv)
  | k, bi, bv, v :: rest =>
      if bv < v then argmaxGo (k + 1) k v rest else argmaxGo (k + 1) bi bv rest

def argmaxVv : List ℚ → ℕ × ℚ
  | [] => (0, 0)
  | v :: rest => argmaxGo 1 0 v rest

/-- The split loop of `genpal` (camera.c lines 912-933).  The state is the
`cube`/`vv` arrays as a list of pairs (the list length is the loop's `i`)
plus the current split target `n`.  `fuel` bounds the number of iterations:
the C loop terminates, and every theorem below holds for every fuel, hence
at every point during the loop and in particular at its final state. -/
def genpalLoop (M : Moments) : ℕ → List (Box × ℚ) → ℕ → List (Box × ℚ)
  | 0, bs, _ => bs
  | fuel + 1, bs, n =>
    if bs.length < 256 then
      match Cut M (bs.getD n default).1 with
      | some (b1, b2) =>
          let bs2 := bs.set n (b1, vvOf M b1) ++ [(b2, vvOf M b2)]
          let am := argmaxVv (bs2.map Prod.snd)
          if am.2 ≤ 0 then bs2 else genpalLoop M fuel bs2 am.1
      | none =>
          let bs2 := bs.set n ((bs.getD n default).1, 0)
          let am := argmaxVv (bs2.map Prod.snd)
          if am.2 ≤ 0 then bs2 else genpalLoop M fuel bs2 am.1
    else bs

/-- `cube[0].r0 = cube[0].g0 = cube[0].b0 = 0; cube[0].r1 = cube[0].g1 =
cube[0].b1 = 32;` (camera.c lines 909-910).  The C `vol` field of `cube[0]`
is uninitialized stack memory that is never read before being written; we
pick 0. -/
def initBox : Box := ⟨0, 32, 0, 32, 0, 32, 0⟩

/-- Moment tables after `genpal_addhist` on the pixels and the `M3d` call at
the start of `genpal`. -/
def momentsOf (ps : List ℕ) : Moments :=
  ⟨M3d (Hist3dMr ps), M3d (Hist3dMg ps), M3d (Hist3dMb ps),
    M3d (Hist3dWt ps), M3dQ (Hist3dM2 ps)⟩

/-- The final boxes of a palette build (`cube[0..colsiz)` when the loop
stops). -/
def genpalBoxes (ps : List ℕ) (fuel : ℕ) : List Box :=
  (genpalLoop (momentsOf ps) fuel [(initBox, 0)] 0).map Prod.fst

/-- The palette finalization of `genpal` (camera.c lines 938-945):
`w = Vol(&cube[k],wt); if (!w) { pal[k] = 0; continue; } pal[k] = ...` with
C `long` division (truncation toward zero, `Int.tdiv`). -/
def genpalPal (ps : List ℕ) (fuel : ℕ) : List ℤ :=
  let M := momentsOf ps
  (genpalBoxes ps fuel).map (fun b =>
    let w := Vol b M.wtT
    if w = 0 then 0
    else Int.tdiv (Vol b M.mrT) w * 65536 + Int.tdiv (Vol b M.mgT) w * 256
      + Int.tdiv (Vol b M.mbT) w)

/-- The set of histogram cells covered by a box (`r0 < col <= r1` per the
comment at camera.c line 658). -/
def cells (b : Box) : Finset (ℕ × ℕ × ℕ) :=
  Finset.Ioc b.r0 b.r1 ×ˢ (Finset.Ioc b.g0 b.g1 ×ˢ Finset.Ioc b.b0 b.b1)

/-- The full quantized color cube, i.e. the cells of the initial box. -/
def fullCube : Finset (ℕ × ℕ × ℕ) := cells initBox

/-- Well-formed box: ordered bounds inside 0..32. -/
def wfBox (b : Box) : Prop :=
  b.r0 ≤ b.r1 ∧ b.r1 ≤ 32 ∧ b.g0 ≤ b.g1 ∧ b.g1 ≤ 32 ∧ b.b0 ≤ b.b1 ∧ b.b1 ≤ 32

/-- A list of boxes partitions the full color cube: all well formed, and
every cell of the cube lies in exactly one of them. -/
def BoxesPartition (l : List Box) : Prop :=
  (∀ b ∈ l, wfBox b) ∧
    ∀ c ∈ fullCube, l.countP (fun b => decide (c ∈ cells b)) = 1

end Genland

namespace Genland

/-! ## Terrain synthesis per-cell stores (generate_tomland_terrain, lines 1028-1041)

The blended channel values `gr, gg, gb`, the lighting scalar and the river
noise are `double`s; we take them as `ℚ`/`ℝ` parameters and embed each
per-cell store.  C's double-to-`unsigned char` conversion truncates toward
zero; for out-of-range values we model the byte that the x86 build stores,
i.e. the low 8 bits of the truncated integer. -/

/-- Truncation toward zero of a rational (C float-to-integer conversion). -/
def ratTrunc (q : ℚ) : ℤ := if 0 ≤ q then ⌊q⌋ else -⌊-q⌋

/-- The `unsigned char` ultimately stored by a `(unsigned char)` cast of a
double: truncate toward zero, keep the low 8 bits. -/
def ucharCast (q : ℚ) : ℕ := (ratTrunc q % 256).toNat

/-- Ambient store `amb[k].r = (unsigned char)min(max(gr*d,0),255)` with
`d = .3` (camera.c lines 1028-1031); same for the g/b channels. -/
def ambChannel (g : ℚ) : ℕ := ucharCast (min (max (g * (3 / 10)) 0) 255)

/-- Lit store `buf[k].r = (unsigned char)min(max(gr*d,0),255-maxa)`
(camera.c lines 1037-1039), `d` the lighting scalar, `maxa` the maximum
ambient channel of the cell. -/
def litChannel (g d : ℚ) (maxa : ℕ) : ℕ :=
  ucharCast (min (max (g * d) 0) (255 - (maxa : ℚ)))

/-- Height store `buf[k].a = (unsigned char)(175.0-samp[0]*((double)VSID/256.0))`
(camera.c line 1036) with `VSID = 512`: no clamping before the cast. -/
def hgtChannel (samp : ℚ) : ℕ := ucharCast (175 - samp * (512 / 256))

/-- The storage policy the specification prescribes: clamp to [0,255], then
store the 8-bit value. -/
def specClampByte (q : ℚ) : ℕ := (ratTrunc (min (max q 0) 255)).toNat

/-! ## River mask (generate_tomland_terrain, lines 1004-1005) -/

/-- `d = sin(x*(PI/256.0) + river*4.0)*(.5+.02)+(.5-.02); if (d > 1) d = 1;`
the factor multiplying the raw terrain sample.  The divisor under `x` is the
fixed constant 256, independent of the grid side `VSID = 512`. -/
noncomputable def riverFactor (x : ℕ) (river : ℝ) : ℝ :=
  min (Real.sin ((x : ℝ) * (Real.pi / 256) + river * 4) * (1 / 2 + 2 / 100)
    + (1 / 2 - 2 / 100)) 1

/-- The claim's formula: `sin(x*π/gridSize + river*4)*0.52 + 0.48`, capped
above at 1. -/
noncomputable def claimRiverFactor (gridSize : ℕ) (x : ℕ) (river : ℝ) : ℝ :=
  min (Real.sin ((x : ℝ) * Real.pi / gridSize + river * 4) * (52 / 100)
    + (48 / 100)) 1

/-! ## Shadow raymarch (generate_tomland_terrain, lines 1052-1059) -/

/-- One step's neighbor index `(((y-(j>>1))&(VSID-1))<<VSHL)+((x-i)&(VSID-1))`
at step `i` (the C loop keeps `j = i`): column decreases by `i`, row by
`i/2`, toroidally. -/
def shadowIdx (x y : ℕ) (i : ℕ) : ℕ :=
  (((y : ℤ) - (i / 2 : ℕ)) % 512).toNat * 512 + (((x : ℤ) - (i : ℕ)) % 512).toNat

/-- The raymarch for cell `(x, y)`: `f = hgt[k]+.44; for(i=j=1;i<(VSID>>2);
j++,i++,f+=.44) if (hgt[...] > f) { sh[k] = 32; break; }` — at step `i` the
accumulated threshold is `hgt[k] + 0.44*i`; steps run for `i = 1..127`
(`i < VSID>>2 = 128`).  Result 32 if any step fires, else the `memset` 0. -/
def shadowFactor (hgt : ℕ → ℚ) (x y : ℕ) : ℕ :=
  if (List.range' 1 127).any (fun i =>
      decide (hgt (y * 512 + x) + (44 / 100 : ℚ) * i < hgt (shadowIdx x y i)))
  then 32 else 0

/-- The claim's raymarch: up to `gridSize/4 = 128` steps along the diagonal
on which row and column both increase, toroidally. -/
def claimShadowFactor (hgt : ℕ → ℚ) (x y : ℕ) : ℕ :=
  if (List.range' 1 128).any (fun i =>
      decide (hgt (y * 512 + x) + (44 / 100 : ℚ) * i
        < hgt ((((y : ℤ) + (i : ℕ)) % 512).toNat * 512
            + (((x : ℤ) + (i : ℕ)) % 512).toNat)))
  then 32 else 0

/-! ## Shadow blur and composite (generate_tomland_terrain, lines 1062-1077) -/

/-- The box blur written into a cell:
`sh[k] = (sh[k] + sh[y+1,x] + sh[y,x+1] + sh[y+1,x+1] + 2) >> 2`. -/
def shBlurCell (s0 s1 s2 s3 : ℕ) : ℕ := (s0 + s1 + s2 + s3 + 2) / 4

/-- The composite of a lit channel with the ambient channel:
`i = 256-(sh[k]<<2); buf[k].r = ((buf[k].r*i)>>8) + amb[k].r` — on the
reachable domain `sh ≤ 32` (proved below) the `long` arithmetic is
nonnegative, matching this `ℕ` form. -/
def compositeChannel (lit amb sh : ℕ) : ℕ := lit * (256 - 4 * sh) / 256 + amb

/-! ## signprint (camera.c lines 588-620) -/

/-- The 13-bytes-per-row, 100x19 sign bitmap `signfplc`. -/
def signfplc : List ℕ :=
  [0x10, 0xdd, 0xc1, 0x15, 0xdc, 0x45, 0xcc, 0xdd, 0x5d, 0x74, 0x71, 0xe9, 0x00,
   0xb0, 0x55, 0x41, 0x15, 0x48, 0x6d, 0x54, 0x55, 0x55, 0x54, 0x11, 0x45, 0x00,
   0x50, 0xdd, 0xc1, 0x1c, 0x48, 0x55, 0x54, 0xcd, 0x54, 0x55, 0x71, 0x43, 0x00,
   0x10, 0x55, 0x40, 0x09, 0x48, 0x45, 0x54, 0x55, 0xd5, 0x56, 0x41, 0x45, 0x00,
   0x10, 0x55, 0xc0, 0x09, 0xc8, 0x45, 0xcc, 0x5d, 0x5d, 0x74, 0x77, 0xe9, 0x00,
   0x00, 0x00, 0x00, 0x00, 0x00, 0x00, 0x00, 0x00, 0x00, 0x00, 0x00, 0x00, 0x00,
   0x00, 0x00, 0x00, 0x00, 0x00, 0x00, 0x00, 0x00, 0x00, 0x00, 0x00, 0x00, 0x00,
   0x75, 0x77, 0x80, 0xc8, 0xdd, 0xc0, 0x15, 0x5c, 0x40, 0xcb, 0x5d, 0x94, 0x0a,
   0x25, 0x52, 0x42, 0x24, 0x44, 0x41, 0x15, 0x54, 0x20, 0x8d, 0xd4, 0x56, 0x0a,
   0x27, 0x72, 0x20, 0xa2, 0x4d, 0xc1, 0x09, 0x5c, 0x10, 0x80, 0x54, 0x35, 0x0e,
   0x25, 0x12, 0x12, 0x21, 0x45, 0x41, 0x15, 0x44, 0x08, 0x80, 0x54, 0x54, 0x0a,
   0x25, 0x12, 0x88, 0xc0, 0xdc, 0x48, 0x95, 0xc4, 0x05, 0x80, 0x5c, 0x94, 0x0a,
   0x00, 0x00, 0x00, 0x00, 0x00, 0x00, 0x00, 0x00, 0x00, 0x00, 0x00, 0x00, 0x00,
   0x00, 0x00, 0x00, 0x00, 0x00, 0x00, 0x00, 0x00, 0x00, 0x00, 0x00, 0x00, 0x00,
   0x00, 0x77, 0x77, 0x70, 0x77, 0x30, 0x77, 0x77, 0x77, 0x75, 0x77, 0x09, 0x00,
   0x00, 0x51, 0x11, 0x10, 0x55, 0x50, 0x12, 0x52, 0x52, 0x25, 0x52, 0x0b, 0x00,
   0x00, 0x33, 0x33, 0x30, 0x35, 0x50, 0x72, 0x32, 0x32, 0x25, 0x52, 0x0d, 0x00,
   0x00, 0x51, 0x11, 0x10, 0x55, 0x50, 0x42, 0x52, 0x52, 0x25, 0x52, 0x09, 0x00,
   0x00, 0x51, 0x77, 0x10, 0x57, 0x30, 0x77, 0x52, 0x77, 0x27, 0x77, 0x09, 0x00]

/-- `signprint(x0, y0)` on the flat `buf` raster viewed as `long` cells:
`lptr` starts at cell `y0*VSID + x0` and advances one row (`VSID` cells) per
sign row; a set bit at `(dy, dx)` performs `lptr[dx] -= 0x01101010`. -/
def signprint (x0 y0 : ℕ) (buf : ℕ → ℤ) : ℕ → ℤ :=
  (List.range 19).foldl (fun b dy =>
    (List.range 100).foldl (fun b2 dx =>
      if (signfplc.getD (dy * 13 + dx / 8) 0).testBit (dx % 8) then
        Function.update b2 ((y0 + dy) * 512 + (x0 + dx))
          (b2 ((y0 + dy) * 512 + (x0 + dx)) - 0x01101010)
      else b2) b) buf

/-! ## Voxelizer and VXL export (camera.c lines 425-504) -/

/-- `typedef struct { unsigned char b, g, r, a; } vcol;` -/
structure Vcol where
  b : Fin 256
  g : Fin 256
  r : Fin 256
  a : Fin 256
deriving DecidableEq

instance : Inhabited Vcol := ⟨⟨0, 0, 0, 0⟩⟩

/-- `process_voxel_data` (camera.c lines 437-459) as the sequence of
`volume_set_at(volume, NULL, pos, color)` calls it issues: for each cell in
y-outer/x-inner order, if the height byte `z = argb->a` is positive, one
write at position `(x, y, z)` with color `(r, g, b, 255)`. -/
def processVoxelData (argb : ℕ → Vcol) : List ((ℕ × ℕ × ℕ) × (ℕ × ℕ × ℕ × ℕ)) :=
  (List.range 512).flatMap (fun y =>
    (List.range 512).flatMap (fun x =>
      if 0 < ((argb (y * 512 + x)).a : ℕ) then
        [((x, y, ((argb (y * 512 + x)).a : ℕ)),
          (((argb (y * 512 + x)).r : ℕ), ((argb (y * 512 + x)).g : ℕ),
            ((argb (y * 512 + x)).b : ℕ), 255))]
      else []))

/-- The four little-endian bytes of `fwrite(&i,4,1,fil)` on a 32-bit value. -/
def le32 (v : ℕ) : List ℕ :=
  [v % 256, v / 256 % 256, v / 65536 % 256, v / 16777216 % 256]

/-- The 32-bit value `*(long *)argb` of a color cell (little-endian field
order b, g, r, a). -/
def vcolLong (c : Vcol) : ℕ :=
  (c.b : ℕ) + 256 * (c.g : ℕ) + 65536 * (c.r : ℕ) + 16777216 * (c.a : ℕ)

/-- The run stop `zz` of a column of `savevxl` (camera.c lines 485-492):
`zz = z+1` raised to each in-bounds 4-neighbor's height byte, scanned in the
order i = -1 (x, then y), i = +1 (x, then y); the bounds checks
`(unsigned long)(x+i) < VSID` are not toroidal. -/
def runStop (argb : ℕ → Vcol) (x y : ℕ) : ℕ :=
  let k := y * 512 + x
  let z := ((argb k).a : ℕ)
  let zz := z + 1
  let zz := if 1 ≤ x ∧ zz < ((argb (k - 1)).a : ℕ) then ((argb (k - 1)).a : ℕ) else zz
  let zz := if 1 ≤ y ∧ zz < ((argb (k - 512)).a : ℕ) then ((argb (k - 512)).a : ℕ) else zz
  let zz := if x + 1 < 512 ∧ zz < ((argb (k + 1)).a : ℕ) then ((argb (k + 1)).a : ℕ) else zz
  let zz := if y + 1 < 512 ∧ zz < ((argb (k + 512)).a : ℕ) then ((argb (k + 512)).a : ℕ) else zz
  zz

/-- The bytes `savevxl` emits for one column (camera.c lines 494-499): the
4-byte header `fputc(0); fputc(z); fputc((zz-1)&255); fputc(0);` then
`fwrite` of `(((*(long *)argb)&0xffffff)|0x80000000)` once per `z <= . < zz`. -/
def colBytes (argb : ℕ → Vcol) (x y : ℕ) : List ℕ :=
  let k := y * 512 + x
  let z := ((argb k).a : ℕ)
  let zz := runStop argb x y
  [0, z % 256, (zz - 1) % 256, 0] ++
    (List.replicate (zz - z) (le32 (vcolLong (argb k) % 16777216 + 2147483648))).flatten

/-- The byte stream written by `savevxl` (camera.c lines 461-504) in program
order.  The three `double`s of each `dpoint3d` record are serialized by the
caller-supplied encoder `enc3` (IEEE-754 layout is outside the embedding);
`savevxl` passes it the exact values the C code stores. -/
def savevxl (enc3 : ℚ → ℚ → ℚ → List ℕ) (argb : ℕ → Vcol) : List ℕ :=
  le32 0x09072000 ++ le32 512 ++ le32 512 ++
    enc3 256 256 ((((argb (256 * 512 + 256)).a : ℕ) : ℚ) - 64) ++
    enc3 1 0 0 ++ enc3 0 0 1 ++ enc3 0 (-1) 0 ++
    (List.range 512).flatMap (fun y =>
      (List.range 512).flatMap (fun x => colBytes argb x y))

/-- The layout the claim describes: version tag, two grid-dimension fields,
four 3-vector records, then per grid column in row-major order a header
`(0, top, bottom, 0)` followed by one 4-byte color entry per voxel of the
run, each entry's top 8 bits being the fixed marker `0x80`. -/
def vxlClaimLayout (enc3 : ℚ → ℚ → ℚ → List ℕ) (argb : ℕ → Vcol) : List ℕ :=
  le32 0x09072000 ++ le32 512 ++ le32 512 ++
    enc3 256 256 ((((argb (256 * 512 + 256)).a : ℕ) : ℚ) - 64) ++
    enc3 1 0 0 ++ enc3 0 0 1 ++ enc3 0 (-1) 0 ++
    (List.range 512).flatMap (fun y =>
      (List.range 512).flatMap (fun x =>
        [0, ((argb (y * 512 + x)).a : ℕ) % 256, (runStop argb x y - 1) % 256, 0] ++
          (List.range (runStop argb x y - ((argb (y * 512 + x)).a : ℕ))).flatMap
            (fun _ => [((argb (y * 512 + x)).b : ℕ), ((argb (y * 512 + x)).g : ℕ),
              ((argb (y * 512 + x)).r : ℕ), 128])))

/-- Number of color entries in a column's run. -/
def colRunLen (argb : ℕ → Vcol) (x y : ℕ) : ℕ :=
  runStop argb x y - ((argb (y * 512 + x)).a : ℕ)

end Genland

namespace Genland

/-! ## Helper lemmas on the byte stores -/

theorem ratTrunc_eq_floor (q : ℚ) (hq : 0 ≤ q) : ratTrunc q = ⌊q⌋ := if_pos hq

theorem floor_le_255 {q : ℚ} (h : q ≤ 255) : ⌊q⌋ ≤ 255 := by
  have h2 : ⌊q⌋ ≤ ⌊(255 : ℚ)⌋ := Int.floor_le_floor h
  have h3 : ⌊(255 : ℚ)⌋ = 255 := by
    rw [show (255 : ℚ) = ((255 : ℤ) : ℚ) by norm_num, Int.floor_intCast]
  omega

/-- On an in-range clamped value, `ucharCast` is the floor, with no
wraparound. -/
theorem ucharCast_of_range {q : ℚ} (h0 : 0 ≤ q) (h1 : q ≤ 255) :
    ucharCast q = (⌊q⌋).toNat := by
  have hf0 : (0 : ℤ) ≤ ⌊q⌋ := Int.floor_nonneg.mpr h0
  have hf1 : ⌊q⌋ ≤ 255 := floor_le_255 h1
  unfold ucharCast
  rw [ratTrunc_eq_floor q h0, Int.emod_eq_of_lt hf0 (by omega)]

theorem clamp_nonneg (a c : ℚ) (hc : 0 ≤ c) : 0 ≤ min (max a 0) c :=
  le_min (le_max_right a 0) hc

/-- The lit store really is bounded by `255 - maxa` (used by the overflow
claim and by the amended clamping claim). -/
theorem litChannel_le (g d : ℚ) (maxa : ℕ) (h : maxa ≤ 255) :
    litChannel g d maxa ≤ 255 - maxa := by
  have hc : (0 : ℚ) ≤ 255 - (maxa : ℚ) := by
    have : (maxa : ℚ) ≤ 255 := by exact_mod_cast h
    linarith
  have h0 : 0 ≤ min (max (g * d) 0) (255 - (maxa : ℚ)) := clamp_nonneg _ _ hc
  have h1 : min (max (g * d) 0) (255 - (maxa : ℚ)) ≤ 255 - (maxa : ℚ) := min_le_right _ _
  have h2 : min (max (g * d) 0) (255 - (maxa : ℚ)) ≤ 255 := by linarith [hc, h1]
  have hf0 : (0 : ℤ) ≤ ⌊min (max (g * d) 0) (255 - (maxa : ℚ))⌋ := Int.floor_nonneg.mpr h0
  have hceq : ⌊(255 : ℚ) - (maxa : ℚ)⌋ = 255 - (maxa : ℤ) := by
    rw [show (255 : ℚ) - (maxa : ℚ) = ((255 - (maxa : ℤ) : ℤ) : ℚ) by push_cast; ring,
      Int.floor_intCast]
  have hf : ⌊min (max (g * d) 0) (255 - (maxa : ℚ))⌋ ≤ 255 - (maxa : ℤ) := by
    have h3 := Int.floor_le_floor h1
    omega
  unfold litChannel
  rw [ucharCast_of_range h0 h2]
  omega

/-- Claim C1 (amended): the r/g/b channels of the ambient and lit buffers are
stored clamped (the ambient ones to [0,255], the lit ones to
[0, 255-maxa] ⊆ [0,255]), with no wraparound; the 4th (height) channel is
stored by a direct unclamped conversion, which agrees with the intermediate
value only when that value is already in range. -/
theorem c1_channel_clamp_amended :
    (∀ g : ℚ, ambChannel g = specClampByte (g * (3 / 10)) ∧ ambChannel g ≤ 255) ∧
    (∀ (g d : ℚ) (maxa : ℕ), maxa ≤ 255 → litChannel g d maxa ≤ 255 - maxa) ∧
    (∀ samp : ℚ, 0 ≤ 175 - samp * (512 / 256) → 175 - samp * (512 / 256) ≤ 255 →
      hgtChannel samp = (⌊175 - samp * (512 / 256)⌋).toNat) := by
  refine ⟨fun g => ?_, fun g d maxa h => litChannel_le g d maxa h, fun samp h0 h1 => ?_⟩
  · have h0 : 0 ≤ min (max (g * (3 / 10)) 0) 255 := clamp_nonneg _ _ (by norm_num)
    have h1 : min (max (g * (3 / 10)) 0) 255 ≤ 255 := min_le_right _ _
    have hf0 : (0 : ℤ) ≤ ⌊min (max (g * (3 / 10)) 0) 255⌋ := Int.floor_nonneg.mpr h0
    have hf1 : ⌊min (max (g * (3 / 10)) 0) 255⌋ ≤ 255 := floor_le_255 h1
    unfold ambChannel specClampByte
    rw [ucharCast_of_range h0 h1, ratTrunc_eq_floor _ h0]
    omega
  · unfold hgtChannel
    rw [ucharCast_of_range h0 h1]

/-- Claim C1 counterexample: at `samp = -41` (so intermediate height
`175 + 82 = 257`), the stored byte is 1 — the wrapped low bits — where the
claimed clamping policy stores 255. -/
theorem c1_counterexample :
    hgtChannel (-41) ≠ specClampByte (175 - (-41 : ℚ) * (512 / 256)) ∧
    hgtChannel (-41) = 1 ∧ specClampByte (175 - (-41 : ℚ) * (512 / 256)) = 255 := by
  have hv : (175 : ℚ) - (-41 : ℚ) * (512 / 256) = ((257 : ℤ) : ℚ) := by norm_num
  have h1 : hgtChannel (-41) = 1 := by
    unfold hgtChannel ucharCast
    rw [hv, ratTrunc_eq_floor _ (by norm_num), Int.floor_intCast]
    decide
  have h2 : specClampByte (175 - (-41 : ℚ) * (512 / 256)) = 255 := by
    unfold specClampByte
    rw [hv]
    have hm : min (max ((257 : ℤ) : ℚ) 0) 255 = ((255 : ℤ) : ℚ) := by
      rw [max_eq_left (by norm_num), min_eq_right (by norm_num)]
      norm_num
    rw [hm, ratTrunc_eq_floor _ (by norm_num), Int.floor_intCast]
    decide
  exact ⟨by rw [h1, h2]; omega, h1, h2⟩

theorem c1_witness :
    litChannel 0 0 255 ≤ 255 - 255 ∧
    hgtChannel 0 = (⌊(175 : ℚ) - 0 * (512 / 256)⌋).toNat :=
  ⟨c1_channel_clamp_amended.2.1 0 0 255 (by norm_num),
    c1_channel_clamp_amended.2.2 0 (by norm_num) (by norm_num)⟩

end Genland

namespace Genland

/-! ## Claim C9: shadow composite cannot overflow -/

/-- Claim C9: the raymarch only produces factors 0 or 32; the blur keeps
factors at most 32; and for any such factor the composited channel
`((lit*(256-4*sh))>>8) + amb` stays at most 255, because the lit channel was
clamped to `255 - maxa` and the ambient channel is at most `maxa`. -/
theorem c9_composite_no_overflow :
    (∀ (hgt : ℕ → ℚ) (x y : ℕ), shadowFactor hgt x y = 0 ∨ shadowFactor hgt x y = 32) ∧
    (∀ s0 s1 s2 s3 : ℕ, s0 ≤ 32 → s1 ≤ 32 → s2 ≤ 32 → s3 ≤ 32 →
      shBlurCell s0 s1 s2 s3 ≤ 32) ∧
    (∀ (g d : ℚ) (maxa amb sh : ℕ), maxa ≤ 255 → amb ≤ maxa → sh ≤ 32 →
      compositeChannel (litChannel g d maxa) amb sh ≤ 255) := by
  refine ⟨fun hgt x y => ?_, fun s0 s1 s2 s3 h0 h1 h2 h3 => ?_,
    fun g d maxa amb sh hm ha hs => ?_⟩
  · unfold shadowFactor
    split
    · exact Or.inr rfl
    · exact Or.inl rfl
  · unfold shBlurCell
    omega
  · have hlit := litChannel_le g d maxa hm
    unfold compositeChannel
    have h1 : litChannel g d maxa * (256 - 4 * sh) ≤ litChannel g d maxa * 256 :=
      Nat.mul_le_mul_left _ (by omega)
    have h2 : litChannel g d maxa * (256 - 4 * sh) / 256 ≤ litChannel g d maxa * 256 / 256 :=
      Nat.div_le_div_right h1
    have h3 : litChannel g d maxa * 256 / 256 = litChannel g d maxa :=
      Nat.mul_div_cancel _ (by omega)
    omega

theorem c9_witness :
    (255 : ℕ) ≤ 255 ∧ (55 : ℕ) ≤ 255 ∧ (32 : ℕ) ≤ 32 ∧
    compositeChannel (litChannel 100 1 55) 55 32 ≤ 255 :=
  ⟨le_refl _, by decide, le_refl _,
    c9_composite_no_overflow.2.2 100 1 55 55 32 (by decide) (by decide) (by decide)⟩

/-! ## Claim C3: the shadow raymarch -/

/-- Claim C3 (amended): the factor is 0 or 32, and it is 32 exactly when
some step `i` with `1 ≤ i < 128` (i.e. up to `gridSize/4 - 1` steps) finds
the toroidal neighbor at column `x - i`, row `y - i/2` higher than the
cell's height plus `0.44*i`; the march direction decreases the column at
full rate and the row at half rate (it does not increase row and column). -/
theorem c3_shadow_march_amended : ∀ (hgt : ℕ → ℚ) (x y : ℕ),
    (shadowFactor hgt x y = 0 ∨ shadowFactor hgt x y = 32) ∧
    (shadowFactor hgt x y = 32 ↔
      ∃ i, 1 ≤ i ∧ i < 128 ∧
        hgt (y * 512 + x) + (44 / 100 : ℚ) * i < hgt (shadowIdx x y i)) := by
  intro hgt x y
  have key : ((List.range' 1 127).any (fun i =>
      decide (hgt (y * 512 + x) + (44 / 100 : ℚ) * i < hgt (shadowIdx x y i))) = true) ↔
      ∃ i, 1 ≤ i ∧ i < 128 ∧
        hgt (y * 512 + x) + (44 / 100 : ℚ) * i < hgt (shadowIdx x y i) := by
    rw [List.any_eq_true]
    constructor
    · rintro ⟨i, hi, hp⟩
      obtain ⟨j, hj, hij⟩ := List.mem_range'.mp hi
      exact ⟨i, by omega, by omega, of_decide_eq_true hp⟩
    · rintro ⟨i, h1, h2, hp⟩
      exact ⟨i, List.mem_range'.mpr ⟨i - 1, by omega, by omega⟩, decide_eq_true hp⟩
  unfold shadowFactor
  by_cases hc : (List.range' 1 127).any (fun i =>
      decide (hgt (y * 512 + x) + (44 / 100 : ℚ) * i < hgt (shadowIdx x y i))) = true
  · rw [if_pos hc]
    exact ⟨Or.inr rfl, fun _ => key.mp hc, fun _ => rfl⟩
  · rw [if_neg hc]
    exact ⟨Or.inl rfl, fun h0 => absurd h0 (by omega), fun hex => absurd (key.mpr hex) hc⟩

/-- A height field that is 100 at flat index 511 and 0 elsewhere: the code's
march from cell (0,0) hits index 511 at its first step, the claim's
(increasing-diagonal) march never does. -/
def hgtProbe : ℕ → ℚ := fun n => if n = 511 then 100 else 0

/-- Claim C3 counterexample: on `hgtProbe`, the claimed increasing-diagonal
march leaves cell (0,0) unshadowed while the code shadows it (the code
marches toward decreasing column). -/
theorem c3_counterexample :
    claimShadowFactor hgtProbe 0 0 = 0 ∧ shadowFactor hgtProbe 0 0 = 32 := by
  constructor
  · unfold claimShadowFactor
    rw [if_neg]
    intro hc
    rw [List.any_eq_true] at hc
    obtain ⟨i, hi, hp⟩ := hc
    obtain ⟨j, hj, hij⟩ := List.mem_range'.mp hi
    have hp2 := of_decide_eq_true hp
    have hidx : ((((0 : ℕ) : ℤ) + (i : ℕ)) % 512).toNat * 512
        + ((((0 : ℕ) : ℤ) + (i : ℕ)) % 512).toNat = i * 512 + i := by
      omega
    rw [hidx] at hp2
    have hne : i * 512 + i ≠ 511 := by omega
    have h511 : hgtProbe (i * 512 + i) = 0 := by
      unfold hgtProbe
      rw [if_neg hne]
    have h0 : hgtProbe (0 * 512 + 0) = 0 := by
      unfold hgtProbe
      norm_num
    rw [h511, h0] at hp2
    have hpos : (0 : ℚ) ≤ (44 / 100 : ℚ) * i := by positivity
    linarith
  · unfold shadowFactor
    rw [if_pos]
    rw [List.any_eq_true]
    refine ⟨1, List.mem_range'.mpr ⟨0, by omega, by omega⟩, decide_eq_true ?_⟩
    have hidx : shadowIdx 0 0 1 = 511 := by
      unfold shadowIdx
      decide
    rw [hidx]
    have h0 : hgtProbe (0 * 512 + 0) = 0 := by
      unfold hgtProbe
      norm_num
    have h511 : hgtProbe 511 = 100 := by
      unfold hgtProbe
      norm_num
    rw [h0, h511]
    norm_num

/-! ## Claim C2: the river mask -/

/-- Claim C2 (amended): the river mask factor is the claim's formula with the
fixed divisor 256 in place of `gridSize` (the grid side is 512): the code
computes `min(sin(x*(π/256) + river*4)*0.52 + 0.48, 1)`. -/
theorem c2_river_mask_amended : ∀ (x : ℕ) (river : ℝ),
    riverFactor x river = claimRiverFactor 256 x river := by
  intro x river
  unfold riverFactor claimRiverFactor
  have e1 : ((x : ℝ)) * Real.pi / ((256 : ℕ) : ℝ) = (x : ℝ) * (Real.pi / 256) := by
    push_cast
    ring
  rw [e1]
  norm_num

/-- Claim C2 counterexample: at grid side 512, column 1, river noise 0, the
claim's factor `sin(1*π/512 + 0)*0.52 + 0.48` differs from the code's
`sin(1*(π/256) + 0)*0.52 + 0.48`. -/
theorem c2_counterexample : claimRiverFactor 512 1 0 ≠ riverFactor 1 0 := by
  unfold claimRiverFactor riverFactor
  have hπ := Real.pi_pos
  have e1 : ((1 : ℕ) : ℝ) * Real.pi / ((512 : ℕ) : ℝ) + (0 : ℝ) * 4 = Real.pi / 512 := by
    push_cast
    ring
  have e2 : ((1 : ℕ) : ℝ) * (Real.pi / 256) + (0 : ℝ) * 4 = Real.pi / 256 := by
    push_cast
    ring
  rw [e1, e2]
  have hmemA : Real.pi / 512 ∈ Set.Icc (-(Real.pi / 2)) (Real.pi / 2) := by
    constructor
    · have h1 : (0 : ℝ) < Real.pi / 512 := by positivity
      linarith
    · exact div_le_div_of_nonneg_left (le_of_lt hπ) (by norm_num) (by norm_num)
  have hmemB : Real.pi / 256 ∈ Set.Icc (-(Real.pi / 2)) (Real.pi / 2) := by
    constructor
    · have h1 : (0 : ℝ) < Real.pi / 256 := by positivity
      linarith
    · exact div_le_div_of_nonneg_left (le_of_lt hπ) (by norm_num) (by norm_num)
  have hlt : Real.pi / 512 < Real.pi / 256 := div_lt_div_of_pos_left hπ (by norm_num) (by norm_num)
  have hsin : Real.sin (Real.pi / 512) < Real.sin (Real.pi / 256) :=
    Real.strictMonoOn_sin hmemA hmemB hlt
  have hb1 : Real.sin (Real.pi / 512) * (52 / 100) + 48 / 100 ≤ 1 := by
    have := Real.sin_le_one (Real.pi / 512)
    linarith
  have hb2 : Real.sin (Real.pi / 256) * (1 / 2 + 2 / 100) + (1 / 2 - 2 / 100) ≤ 1 := by
    have := Real.sin_le_one (Real.pi / 256)
    linarith
  rw [min_eq_left hb1, min_eq_left hb2]
  intro heq
  linarith

end Genland

namespace Genland

/-! ## Claim C6: the sign stamp and the fixed call signprint(426, 982) -/

set_option maxRecDepth 1000000 in
/-- Claim C6 evaluation: the sign bit at (dy,dx) = (0,4) is set, so the call
`signprint(426, 982)` of the pipeline stores at raster index
`(982+0)*512 + (426+4) = 503214`, which lies outside the `512*512`-cell
raster; the store is observable on the zero buffer. -/
theorem c6_oob_sign_store :
    (signfplc.getD (0 * 13 + 4 / 8) 0).testBit (4 % 8) = true ∧
    (982 + 0) * 512 + (426 + 4) = 503214 ∧
    512 * 512 ≤ 503214 ∧
    signprint 426 982 (fun _ => 0) 503214 = -17829904 :=
  ⟨by decide, by decide, by decide, by decide⟩

/-! ## Claim C7: voxelizer writes -/

theorem filter_flatMap {α β : Type} (l : List α) (f : α → List β) (p : β → Bool) :
    (l.flatMap f).filter p = l.flatMap (fun a => (f a).filter p) := by
  induction l with
  | nil => rfl
  | cons a t ih => simp only [List.flatMap_cons, List.filter_append, ih]

theorem flatMap_eq_nil {α : Type} (n : ℕ) (g : ℕ → List α)
    (h : ∀ y, y < n → g y = []) : (List.range n).flatMap g = [] := by
  induction n with
  | zero => rfl
  | succ m ih =>
    rw [List.range_succ, List.flatMap_append]
    rw [ih (fun y hy => h y (by omega))]
    simp [h m (by omega)]

theorem flatMap_single {α : Type} (n x : ℕ) (g : ℕ → List α) (hx : x < n)
    (h : ∀ y, y < n → y ≠ x → g y = []) : (List.range n).flatMap g = g x := by
  induction n with
  | zero => omega
  | succ m ih =>
    rw [List.range_succ, List.flatMap_append]
    by_cases hxm : x = m
    · rw [flatMap_eq_nil m g (fun y hy => h y (by omega) (by omega))]
      simp [hxm]
    · rw [ih (by omega) (fun y hy hne => h y (by omega) hne)]
      simp [h m (by omega) (by omega)]

/-- Claim C7: for every grid cell the voxelizer issues exactly one write at
`(x, y, h)` with the cell's RGB and alpha 255 when the embedded height byte
`h` is nonzero, and no write at all when `h = 0`; stated as the sublist of
writes targeting the cell. -/
theorem c7_voxelizer_writes : ∀ (argb : ℕ → Vcol) (x y : ℕ), x < 512 → y < 512 →
    (processVoxelData argb).filter (fun w => decide (w.1.1 = x ∧ w.1.2.1 = y)) =
      (if 0 < ((argb (y * 512 + x)).a : ℕ) then
        [((x, y, ((argb (y * 512 + x)).a : ℕ)),
          (((argb (y * 512 + x)).r : ℕ), ((argb (y * 512 + x)).g : ℕ),
            ((argb (y * 512 + x)).b : ℕ), 255))]
      else []) := by
  intro argb x y hx hy
  unfold processVoxelData
  rw [filter_flatMap]
  have hout : ∀ y2, y2 < 512 → y2 ≠ y →
      ((List.range 512).flatMap (fun x2 =>
        if 0 < ((argb (y2 * 512 + x2)).a : ℕ) then
          [((x2, y2, ((argb (y2 * 512 + x2)).a : ℕ)),
            (((argb (y2 * 512 + x2)).r : ℕ), ((argb (y2 * 512 + x2)).g : ℕ),
              ((argb (y2 * 512 + x2)).b : ℕ), 255))]
        else [])).filter (fun w => decide (w.1.1 = x ∧ w.1.2.1 = y)) = [] := by
    intro y2 hy2 hne
    rw [filter_flatMap]
    apply flatMap_eq_nil
    intro x2 hx2
    by_cases ha : 0 < ((argb (y2 * 512 + x2)).a : ℕ)
    · rw [if_pos ha]
      simp [hne]
    · rw [if_neg ha]
      rfl
  rw [flatMap_single 512 y _ hy (fun y2 h2 hne => by rw [hout y2 h2 hne])]
  rw [filter_flatMap]
  rw [flatMap_single 512 x _ hx (fun x2 h2 hne => by
    by_cases ha : 0 < ((argb (y * 512 + x2)).a : ℕ)
    · rw [if_pos ha]
      simp [hne]
    · rw [if_neg ha]
      rfl)]
  by_cases ha : 0 < ((argb (y * 512 + x)).a : ℕ)
  · rw [if_pos ha]
    simp
  · rw [if_neg ha]
    rfl

/-- A raster with a single populated cell at the origin (height 5, color
r=29 g=23 b=17). -/
def argbProbe : ℕ → Vcol := fun k => if k = 0 then ⟨17, 23, 29, 5⟩ else ⟨0, 0, 0, 0⟩

theorem c7_witness :
    (0 : ℕ) < 512 ∧
    (processVoxelData argbProbe).filter
        (fun w => decide (w.1.1 = 0 ∧ w.1.2.1 = 0)) =
      (if 0 < ((argbProbe (0 * 512 + 0)).a : ℕ) then
        [((0, 0, ((argbProbe (0 * 512 + 0)).a : ℕ)),
          (((argbProbe (0 * 512 + 0)).r : ℕ), ((argbProbe (0 * 512 + 0)).g : ℕ),
            ((argbProbe (0 * 512 + 0)).b : ℕ), 255))]
      else []) :=
  ⟨by decide, c7_voxelizer_writes argbProbe 0 0 (by decide) (by decide)⟩

end Genland

namespace Genland

/-! ## Claim C5: the savevxl byte layout -/

theorem le32_length (v : ℕ) : (le32 v).length = 4 := rfl

theorem flatten_replicate_swap {α : Type} (n : ℕ) (l : List α) :
    l ++ (List.replicate n l).flatten = (List.replicate n l).flatten ++ l := by
  induction n with
  | zero => simp
  | succ m ih =>
    simp only [List.replicate_succ, List.flatten_cons, List.append_assoc]
    rw [← ih]

theorem replicate_flatten_eq {α : Type} (n : ℕ) (l : List α) :
    (List.replicate n l).flatten = (List.range n).flatMap (fun _ => l) := by
  induction n with
  | zero => rfl
  | succ m ih =>
    rw [List.range_succ, List.flatMap_append, ← ih, List.replicate_succ, List.flatten_cons]
    simp only [List.flatMap_cons, List.flatMap_nil, List.append_nil]
    exact flatten_replicate_swap m l

/-- The color entry's little-endian bytes: low 24 bits are (b, g, r), the top
byte is the fixed 0x80 marker forced by `|0x80000000`. -/
theorem le32_color (c : Vcol) :
    le32 (vcolLong c % 16777216 + 2147483648) = [(c.b : ℕ), (c.g : ℕ), (c.r : ℕ), 128] := by
  have hb : (c.b : ℕ) < 256 := c.b.isLt
  have hg : (c.g : ℕ) < 256 := c.g.isLt
  have hr : (c.r : ℕ) < 256 := c.r.isLt
  have ha : (c.a : ℕ) < 256 := c.a.isLt
  unfold le32 vcolLong
  simp only [List.cons.injEq, and_true]
  omega

theorem colBytes_eq (argb : ℕ → Vcol) (x y : ℕ) :
    colBytes argb x y =
      [0, ((argb (y * 512 + x)).a : ℕ) % 256, (runStop argb x y - 1) % 256, 0] ++
        (List.range (runStop argb x y - ((argb (y * 512 + x)).a : ℕ))).flatMap
          (fun _ => [((argb (y * 512 + x)).b : ℕ), ((argb (y * 512 + x)).g : ℕ),
            ((argb (y * 512 + x)).r : ℕ), 128]) := by
  simp only [colBytes, replicate_flatten_eq, le32_color]

theorem sum_map_const {α : Type} (l : List α) (k : ℕ) :
    (l.map (fun _ => k)).sum = l.length * k := by
  induction l with
  | nil => simp
  | cons a t ih =>
    simp only [List.map_cons, List.sum_cons, ih, List.length_cons]
    ring

theorem colBytes_length (argb : ℕ → Vcol) (x y : ℕ) :
    (colBytes argb x y).length = 4 + 4 * colRunLen argb x y := by
  rw [colBytes_eq]
  norm_num only [List.length_append, List.length_cons, List.length_nil,
    List.length_flatMap, Function.comp_def]
  rw [sum_map_const, List.length_range]
  unfold colRunLen
  omega

/-- Claim C5: `savevxl` writes exactly the claimed layout — 4-byte version
tag, two 4-byte dimension fields, four 3-vector records (24 bytes each by
the encoder hypothesis), then per column in row-major order the header
`(0, top, bottom, 0)` followed by one 4-byte color entry per run voxel with
top byte the fixed marker 0x80 — and its total length is 108 bytes plus
`4 + 4*runLen` bytes per column. -/
theorem c5_savevxl_layout : ∀ (enc3 : ℚ → ℚ → ℚ → List ℕ) (argb : ℕ → Vcol),
    (∀ u v w : ℚ, (enc3 u v w).length = 24) →
    savevxl enc3 argb = vxlClaimLayout enc3 argb ∧
    (savevxl enc3 argb).length =
      108 + ((List.range 512).map (fun y =>
        ((List.range 512).map (fun x => 4 + 4 * colRunLen argb x y)).sum)).sum := by
  intro enc3 argb h24
  constructor
  · unfold savevxl vxlClaimLayout
    simp only [colBytes_eq]
  · unfold savevxl
    simp only [List.length_append, le32_length, h24, List.length_flatMap,
      Function.comp_def]
    have hinner : ∀ y, (List.range 512).map (fun x => (colBytes argb x y).length) =
        (List.range 512).map (fun x => 4 + 4 * colRunLen argb x y) := by
      intro y
      apply List.map_congr_left
      intro x _
      exact colBytes_length argb x y
    simp only [hinner]

def encProbe : ℚ → ℚ → ℚ → List ℕ := fun _ _ _ => List.replicate 24 0

def argbZero : ℕ → Vcol := fun _ => ⟨0, 0, 0, 0⟩

theorem c5_witness :
    (∀ u v w : ℚ, (encProbe u v w).length = 24) ∧
    savevxl encProbe argbZero = vxlClaimLayout encProbe argbZero :=
  ⟨fun _ _ _ => rfl, (c5_savevxl_layout encProbe argbZero (fun _ _ _ => rfl)).1⟩

end Genland

namespace Genland

/-! ## Quantizer: histogram and moment-table lemmas -/

theorem histCell_mem (p : ℕ) : histCell p ∈ fullCube := by
  unfold histCell fullCube cells initBox pixR pixG pixB
  simp only [Finset.mem_product, Finset.mem_Ioc]
  omega

theorem tblSum_bumpZ (t : Tbl) (c : ℕ × ℕ × ℕ) (v : ℤ) (hc : c ∈ fullCube) :
    (∑ x ∈ fullCube, bumpZ t c v x.1 x.2.1 x.2.2)
      = (∑ x ∈ fullCube, t x.1 x.2.1 x.2.2) + v := by
  have hpt : ∀ x : ℕ × ℕ × ℕ, bumpZ t c v x.1 x.2.1 x.2.2
      = t x.1 x.2.1 x.2.2 + (if x = c then v else 0) := by
    intro x
    unfold bumpZ
    by_cases hx : x = c
    · subst hx
      simp
    · rw [if_neg hx, if_neg, add_zero]
      intro hall
      apply hx
      obtain ⟨x1, x2, x3⟩ := x
      obtain ⟨c1, c2, c3⟩ := c
      obtain ⟨e1, e2, e3⟩ := hall
      simp only at e1 e2 e3
      rw [e1, e2, e3]
  rw [Finset.sum_congr rfl (fun x _ => hpt x), Finset.sum_add_distrib,
    Finset.sum_ite_eq' fullCube c (fun _ => v), if_pos hc]

theorem histFold_sum (f : ℕ → ℤ) : ∀ (ps : List ℕ) (t : Tbl),
    (∑ x ∈ fullCube,
      (ps.foldl (fun t2 p => bumpZ t2 (histCell p) (f p)) t) x.1 x.2.1 x.2.2)
      = (∑ x ∈ fullCube, t x.1 x.2.1 x.2.2) + (ps.map f).sum := by
  intro ps
  induction ps with
  | nil => intro t; simp
  | cons p rest ih =>
    intro t
    rw [List.foldl_cons, ih, tblSum_bumpZ t _ _ (histCell_mem p), List.map_cons,
      List.sum_cons]
    ring

/-- Conservation at the histogram level: the counts over the full cube sum to
the number of pixels fed. -/
theorem hist3dWt_total (ps : List ℕ) :
    (∑ x ∈ fullCube, Hist3dWt ps x.1 x.2.1 x.2.2) = (ps.length : ℤ) := by
  unfold Hist3dWt histFold
  rw [histFold_sum]
  simp [List.map_const, List.sum_replicate]

theorem histFold_zero (f : ℕ → ℤ) : ∀ (ps : List ℕ) (t : Tbl),
    (∀ g b, t 0 g b = 0) → ∀ g b,
      (ps.foldl (fun t2 p => bumpZ t2 (histCell p) (f p)) t) 0 g b = 0 := by
  intro ps
  induction ps with
  | nil => intro t ht; exact ht
  | cons p rest ih =>
    intro t ht g b
    rw [List.foldl_cons]
    apply ih
    intro g2 b2
    unfold bumpZ
    rw [if_neg, ht]
    intro hall
    have : histCell p ∈ fullCube := histCell_mem p
    unfold fullCube cells initBox at this
    simp only [Finset.mem_product, Finset.mem_Ioc] at this
    omega

/-! Prefix-sum correctness of the in-place M3d pass. -/

theorem m3dLine_eq {α : Type} [AddCommMonoid α] (raw : ℕ → ℕ → ℕ → α) (r g : ℕ) :
    ∀ b, m3dLine raw r g b = ∑ k ∈ Finset.Ioc 0 b, raw r g k := by
  intro b
  induction b with
  | zero => simp [m3dLine]
  | succ n ih =>
    rw [show m3dLine raw r g (n + 1) = m3dLine raw r g n + raw r g (n + 1) from rfl,
      ih, Finset.sum_Ioc_succ_top (Nat.zero_le n)]

theorem m3dArea_eq {α : Type} [AddCommMonoid α] (raw : ℕ → ℕ → ℕ → α) (r : ℕ) :
    ∀ g b, m3dArea raw r g b
      = ∑ j ∈ Finset.Ioc 0 g, ∑ k ∈ Finset.Ioc 0 b, raw r j k := by
  intro g
  induction g with
  | zero => simp [m3dArea]
  | succ n ih =>
    intro b
    rw [show m3dArea raw r (n + 1) b = m3dArea raw r n b + m3dLine raw r (n + 1) b from rfl,
      ih b, m3dLine_eq, Finset.sum_Ioc_succ_top (Nat.zero_le n)]

theorem m3dOut_eq {α : Type} [AddCommMonoid α] (raw : ℕ → ℕ → ℕ → α)
    (hz : ∀ g b, raw 0 g b = 0) :
    ∀ r g b, m3dOut raw r g b
      = ∑ i ∈ Finset.Ioc 0 r, ∑ j ∈ Finset.Ioc 0 g, ∑ k ∈ Finset.Ioc 0 b, raw i j k := by
  intro r
  induction r with
  | zero =>
    intro g b
    simp [m3dOut, hz]
  | succ n ih =>
    intro g b
    rw [show m3dOut raw (n + 1) g b = m3dOut raw n g b + m3dArea raw (n + 1) g b from rfl,
      ih g b, m3dArea_eq, Finset.sum_Ioc_succ_top (Nat.zero_le n)]

theorem sum_Ioc_sub (f : ℕ → ℤ) (a c : ℕ) (h : a ≤ c) :
    (∑ i ∈ Finset.Ioc 0 c, f i) - (∑ i ∈ Finset.Ioc 0 a, f i)
      = ∑ i ∈ Finset.Ioc a c, f i := by
  rw [← Finset.sum_Ioc_consecutive f (Nat.zero_le a) h]
  ring

end Genland

namespace Genland

/-- After the M3d pass, `Vol` of a well-formed box over a prefix table is the
sum of the raw histogram over the box's cells (inclusion-exclusion on
summed-volume tables). -/
theorem Vol_M3d (raw : Tbl) (hz : ∀ g b, raw 0 g b = 0) (bx : Box) (hwf : wfBox bx) :
    Vol bx (M3d raw) = ∑ c ∈ cells bx, raw c.1 c.2.1 c.2.2 := by
  obtain ⟨h1, h2, h3, h4, h5, h6⟩ := hwf
  have hP : ∀ r g b, M3d raw r g b = ∑ i ∈ Finset.Ioc 0 r, ∑ j ∈ Finset.Ioc 0 g,
      ∑ k ∈ Finset.Ioc 0 b, raw i j k := fun r g b => m3dOut_eq raw hz r g b
  have hcells : ∑ c ∈ cells bx, raw c.1 c.2.1 c.2.2
      = ∑ i ∈ Finset.Ioc bx.r0 bx.r1, ∑ j ∈ Finset.Ioc bx.g0 bx.g1,
          ∑ k ∈ Finset.Ioc bx.b0 bx.b1, raw i j k := by
    unfold cells
    rw [Finset.sum_product]
    refine Finset.sum_congr rfl (fun i _ => ?_)
    rw [Finset.sum_product]
  have er : ∀ g b : ℕ,
      (∑ i ∈ Finset.Ioc 0 bx.r1, ∑ j ∈ Finset.Ioc 0 g, ∑ k ∈ Finset.Ioc 0 b, raw i j k)
        - (∑ i ∈ Finset.Ioc 0 bx.r0, ∑ j ∈ Finset.Ioc 0 g, ∑ k ∈ Finset.Ioc 0 b, raw i j k)
        = ∑ i ∈ Finset.Ioc bx.r0 bx.r1, ∑ j ∈ Finset.Ioc 0 g,
            ∑ k ∈ Finset.Ioc 0 b, raw i j k :=
    fun g b => sum_Ioc_sub _ _ _ h1
  have eg : ∀ b : ℕ,
      (∑ i ∈ Finset.Ioc bx.r0 bx.r1, ∑ j ∈ Finset.Ioc 0 bx.g1,
          ∑ k ∈ Finset.Ioc 0 b, raw i j k)
        - (∑ i ∈ Finset.Ioc bx.r0 bx.r1, ∑ j ∈ Finset.Ioc 0 bx.g0,
            ∑ k ∈ Finset.Ioc 0 b, raw i j k)
        = ∑ i ∈ Finset.Ioc bx.r0 bx.r1, ∑ j ∈ Finset.Ioc bx.g0 bx.g1,
            ∑ k ∈ Finset.Ioc 0 b, raw i j k := by
    intro b
    rw [← Finset.sum_sub_distrib]
    exact Finset.sum_congr rfl (fun i _ => sum_Ioc_sub _ _ _ h3)
  have eb :
      (∑ i ∈ Finset.Ioc bx.r0 bx.r1, ∑ j ∈ Finset.Ioc bx.g0 bx.g1,
          ∑ k ∈ Finset.Ioc 0 bx.b1, raw i j k)
        - (∑ i ∈ Finset.Ioc bx.r0 bx.r1, ∑ j ∈ Finset.Ioc bx.g0 bx.g1,
            ∑ k ∈ Finset.Ioc 0 bx.b0, raw i j k)
        = ∑ i ∈ Finset.Ioc bx.r0 bx.r1, ∑ j ∈ Finset.Ioc bx.g0 bx.g1,
            ∑ k ∈ Finset.Ioc bx.b0 bx.b1, raw i j k := by
    rw [← Finset.sum_sub_distrib]
    refine Finset.sum_congr rfl (fun i _ => ?_)
    rw [← Finset.sum_sub_distrib]
    exact Finset.sum_congr rfl (fun j _ => sum_Ioc_sub _ _ _ h5)
  unfold Vol
  simp only [hP]
  rw [hcells, ← eb, ← eg bx.b1, ← eg bx.b0, ← er bx.g1 bx.b1, ← er bx.g1 bx.b0,
    ← er bx.g0 bx.b1, ← er bx.g0 bx.b0]
  ring

theorem cells_subset (bx : Box) (hwf : wfBox bx) : cells bx ⊆ fullCube := by
  obtain ⟨h1, h2, h3, h4, h5, h6⟩ := hwf
  intro c hc
  unfold cells at hc
  unfold fullCube cells initBox
  simp only [Finset.mem_product, Finset.mem_Ioc] at hc ⊢
  omega

/-- Summing `Vol` over any partition of the color cube gives the full raw
total. -/
theorem boxes_vol_sum (raw : Tbl) (hz : ∀ g b, raw 0 g b = 0) (l : List Box)
    (hpart : BoxesPartition l) :
    (l.map (fun b => Vol b (M3d raw))).sum = ∑ c ∈ fullCube, raw c.1 c.2.1 c.2.2 := by
  obtain ⟨hwf, hcount⟩ := hpart
  have key : ∀ L : List Box, (∀ b ∈ L, wfBox b) →
      (L.map (fun b => Vol b (M3d raw))).sum =
        ∑ c ∈ fullCube,
          ((L.countP (fun b => decide (c ∈ cells b)) : ℤ) * raw c.1 c.2.1 c.2.2) := by
    intro L
    induction L with
    | nil => intro _; simp
    | cons b t ih =>
      intro hwf2
      rw [List.map_cons, List.sum_cons,
        ih (fun b2 hb2 => hwf2 b2 (List.mem_cons_of_mem b hb2))]
      have hb := hwf2 b (List.mem_cons_self b t)
      have hV : Vol b (M3d raw)
          = ∑ c ∈ fullCube, (if c ∈ cells b then raw c.1 c.2.1 c.2.2 else 0) := by
        rw [Vol_M3d raw hz b hb, Finset.sum_ite_mem,
          Finset.inter_eq_right.mpr (cells_subset b hb)]
      rw [hV, ← Finset.sum_add_distrib]
      refine Finset.sum_congr rfl (fun c _ => ?_)
      rw [List.countP_cons]
      by_cases hc : c ∈ cells b
      · rw [if_pos hc, if_pos (by simp [hc])]
        push_cast
        ring
      · rw [if_neg hc, if_neg (by simp [hc])]
        push_cast
        ring
  rw [key l hwf]
  refine Finset.sum_congr rfl (fun c hc => ?_)
  rw [hcount c hc]
  simp

end Genland

namespace Genland

/-! ## Quantizer: structural properties of Maximize and Cut -/

theorem foldl_pres {α β : Type} (P : β → Prop) (Q : α → Prop) (f : β → α → β)
    (hf : ∀ b a, Q a → P b → P (f b a)) :
    ∀ (L : List α), (∀ a ∈ L, Q a) → ∀ b, P b → P (L.foldl f b) := by
  intro L
  induction L with
  | nil => intro _ b hb; exact hb
  | cons a t ih =>
    intro hQ b hb
    rw [List.foldl_cons]
    exact ih (fun x hx => hQ x (List.mem_cons_of_mem a hx)) _
      (hf b a (hQ a (List.mem_cons_self a t)) hb)

/-- The cut candidate returned by `Maximize` is `-1` with score 0, or has a
positive score and lies in `[first, last)` — exactly the positions the scan
visits. -/
theorem maximize_spec (M : Moments) (cube : Box) (dir : ℕ) (first last : ℕ)
    (wr wg wb ww : ℤ) :
    Maximize M cube dir first last wr wg wb ww = (0, -1) ∨
      (0 < (Maximize M cube dir first last wr wg wb ww).1 ∧
        (first : ℤ) ≤ (Maximize M cube dir first last wr wg wb ww).2 ∧
        (Maximize M cube dir first last wr wg wb ww).2 < (last : ℤ)) := by
  unfold Maximize
  apply foldl_pres
    (fun acc : ℚ × ℤ => acc = (0, -1) ∨
      (0 < acc.1 ∧ (first : ℤ) ≤ acc.2 ∧ acc.2 < (last : ℤ)))
    (fun i : ℕ => first ≤ i ∧ i < last)
  · intro acc i hQ hP
    dsimp only
    split_ifs with h1 h2 h3
    · exact hP
    · exact hP
    · right
      have hnn : 0 ≤ acc.1 := by
        rcases hP with h | h
        · rw [h]
        · exact le_of_lt h.1
      refine ⟨lt_of_le_of_lt hnn h3, ?_, ?_⟩
      · show (first : ℤ) ≤ (i : ℤ)
        exact_mod_cast hQ.1
      · show (i : ℤ) < (last : ℤ)
        exact_mod_cast hQ.2
    · exact hP
  · intro i hi
    obtain ⟨j, hj, hij⟩ := List.mem_range'.mp hi
    omega
  · exact Or.inl rfl

/-- When `Cut` succeeds, the two boxes it returns split the cells of the
input box into two disjoint halves, preserve well-formedness, and carry the
freshly recomputed `vol` products. -/
theorem cut_spec (M : Moments) (s b1 b2 : Box) (h : Cut M s = some (b1, b2)) :
    (∀ c : ℕ × ℕ × ℕ, (c ∈ cells b1 ∨ c ∈ cells b2) ↔ c ∈ cells s) ∧
    (∀ c : ℕ × ℕ × ℕ, ¬(c ∈ cells b1 ∧ c ∈ cells b2)) ∧
    (wfBox s → wfBox b1 ∧ wfBox b2) ∧
    b1.vol = ((b1.r1 : ℤ) - b1.r0) * ((b1.g1 : ℤ) - b1.g0) * ((b1.b1 : ℤ) - b1.b0) ∧
    b2.vol = ((b2.r1 : ℤ) - b2.r0) * ((b2.g1 : ℤ) - b2.g0) * ((b2.b1 : ℤ) - b2.b0) := by
  unfold Cut at h
  simp only [] at h
  set pr := Maximize M s 2 (s.r0 + 1) s.r1 (Vol s M.mrT) (Vol s M.mgT) (Vol s M.mbT)
    (Vol s M.wtT) with hpr
  set pg := Maximize M s 1 (s.g0 + 1) s.g1 (Vol s M.mrT) (Vol s M.mgT) (Vol s M.mbT)
    (Vol s M.wtT) with hpg
  set pb := Maximize M s 0 (s.b0 + 1) s.b1 (Vol s M.mrT) (Vol s M.mgT) (Vol s M.mbT)
    (Vol s M.wtT) with hpb
  have specr := maximize_spec M s 2 (s.r0 + 1) s.r1 (Vol s M.mrT) (Vol s M.mgT)
    (Vol s M.mbT) (Vol s M.wtT)
  have specg := maximize_spec M s 1 (s.g0 + 1) s.g1 (Vol s M.mrT) (Vol s M.mgT)
    (Vol s M.mbT) (Vol s M.wtT)
  have specb := maximize_spec M s 0 (s.b0 + 1) s.b1 (Vol s M.mrT) (Vol s M.mgT)
    (Vol s M.mbT) (Vol s M.wtT)
  rw [← hpr] at specr
  rw [← hpg] at specg
  rw [← hpb] at specb
  have hr0 : (0 : ℚ) ≤ pr.1 := by
    rcases specr with hh | hh
    · rw [hh]
    · exact le_of_lt hh.1
  have hg0 : (0 : ℚ) ≤ pg.1 := by
    rcases specg with hh | hh
    · rw [hh]
    · exact le_of_lt hh.1
  have hb0 : (0 : ℚ) ≤ pb.1 := by
    rcases specb with hh | hh
    · rw [hh]
    · exact le_of_lt hh.1
  split_ifs at h with hA hneg hB
  · -- r direction (the cutr < 0 branch returned none and is discharged)
    have hrange : (s.r0 + 1 : ℤ) ≤ pr.2 ∧ pr.2 < (s.r1 : ℤ) := by
      rcases specr with hh | hh
      · rw [hh] at hneg
        exact absurd (by decide) hneg
      · exact ⟨by exact_mod_cast hh.2.1, hh.2.2⟩
    have hc1 : s.r0 + 1 ≤ pr.2.toNat ∧ pr.2.toNat < s.r1 := by omega
    rw [Option.some_inj] at h
    injection h with h1 h2
    subst h1
    subst h2
    refine ⟨fun c => ?_, fun c => ?_, fun hwf => ?_, rfl, rfl⟩
    · simp only [mkCut, cells, Finset.mem_product, Finset.mem_Ioc]
      omega
    · simp only [mkCut, cells, Finset.mem_product, Finset.mem_Ioc]
      omega
    · obtain ⟨w1, w2, w3, w4, w5, w6⟩ := hwf
      constructor
      · simp only [wfBox]
        omega
      · simp only [wfBox]
        omega
  · -- g direction
    have hgpos : (0 : ℚ) < pg.1 := by
      rcases specg with hh | hh
      · exfalso
        apply hA
        rw [hh]
        constructor
        · simpa using hr0
        · have hble : pb.1 ≤ pg.1 := hB.2
          rw [hh] at hble
          have hpbz : pb.1 = 0 := le_antisymm (by simpa using hble) hb0
          rw [hpbz]
          exact hr0
      · exact hh.1
    have hrange : (s.g0 + 1 : ℤ) ≤ pg.2 ∧ pg.2 < (s.g1 : ℤ) := by
      rcases specg with hh | hh
      · rw [hh] at hgpos
        exact absurd hgpos (by norm_num)
      · exact ⟨by exact_mod_cast hh.2.1, hh.2.2⟩
    have hc1 : s.g0 + 1 ≤ pg.2.toNat ∧ pg.2.toNat < s.g1 := by omega
    rw [Option.some_inj] at h
    injection h with h1 h2
    subst h1
    subst h2
    refine ⟨fun c => ?_, fun c => ?_, fun hwf => ?_, rfl, rfl⟩
    · simp only [mkCut, cells, Finset.mem_product, Finset.mem_Ioc]
      omega
    · simp only [mkCut, cells, Finset.mem_product, Finset.mem_Ioc]
      omega
    · obtain ⟨w1, w2, w3, w4, w5, w6⟩ := hwf
      constructor
      · simp only [wfBox]
        omega
      · simp only [wfBox]
        omega
  · -- b direction
    have hbpos : (0 : ℚ) < pb.1 := by
      rcases specb with hh | hh
      · exfalso
        have hpb0 : pb.1 = 0 := by rw [hh]
        rcases lt_or_le pr.1 pg.1 with hlt | hle
        · exact hB ⟨le_of_lt hlt, by rw [hpb0]; exact hg0⟩
        · exact hA ⟨hle, by rw [hpb0]; exact hr0⟩
      · exact hh.1
    have hrange : (s.b0 + 1 : ℤ) ≤ pb.2 ∧ pb.2 < (s.b1 : ℤ) := by
      rcases specb with hh | hh
      · rw [hh] at hbpos
        exact absurd hbpos (by norm_num)
      · exact ⟨by exact_mod_cast hh.2.1, hh.2.2⟩
    have hc1 : s.b0 + 1 ≤ pb.2.toNat ∧ pb.2.toNat < s.b1 := by omega
    rw [Option.some_inj] at h
    injection h with h1 h2
    subst h1
    subst h2
    refine ⟨fun c => ?_, fun c => ?_, fun hwf => ?_, rfl, rfl⟩
    · simp only [mkCut, cells, Finset.mem_product, Finset.mem_Ioc]
      omega
    · simp only [mkCut, cells, Finset.mem_product, Finset.mem_Ioc]
      omega
    · obtain ⟨w1, w2, w3, w4, w5, w6⟩ := hwf
      constructor
      · simp only [wfBox]
        omega
      · simp only [wfBox]
        omega

end Genland

namespace Genland

/-! ## Quantizer: the split loop maintains a partition -/

theorem countP_set_aux {α : Type} (p : α → Bool) : ∀ (l : List α) (n : ℕ) (a : α),
    n < l.length →
    (l.set n a).countP p + (if p (l.getD n a) then 1 else 0)
      = l.countP p + (if p a then 1 else 0) := by
  intro l
  induction l with
  | nil =>
    intro n a h
    simp at h
  | cons hd tl ih =>
    intro n a h
    cases n with
    | zero =>
      simp only [List.set_cons_zero, List.getD_cons_zero]
      rw [List.countP_cons, List.countP_cons]
      omega
    | succ m =>
      simp only [List.set_cons_succ, List.getD_cons_succ]
      rw [List.countP_cons, List.countP_cons]
      have hm := ih m a (by simpa using h)
      omega

theorem getD_map_fst (bs : List (Box × ℚ)) (n : ℕ) (hn : n < bs.length) (a : Box) :
    (bs.map Prod.fst).getD n a = (bs.getD n (default : Box × ℚ)).1 := by
  rw [List.getD_eq_getElem _ a (by simpa using hn), List.getD_eq_getElem _ _ hn,
    List.getElem_map]

theorem getD_mem_map_fst (bs : List (Box × ℚ)) (n : ℕ) (hn : n < bs.length) :
    (bs.getD n (default : Box × ℚ)).1 ∈ bs.map Prod.fst := by
  rw [List.getD_eq_getElem _ _ hn]
  exact List.mem_map_of_mem _ (List.getElem_mem hn)

theorem argmaxGo_lt : ∀ (l : List ℚ) (k bi : ℕ) (bv : ℚ), bi < k →
    (argmaxGo k bi bv l).1 < k + l.length := by
  intro l
  induction l with
  | nil =>
    intro k bi bv h
    simpa [argmaxGo] using by omega
  | cons v t ih =>
    intro k bi bv h
    rw [show argmaxGo k bi bv (v :: t)
      = if bv < v then argmaxGo (k + 1) k v t else argmaxGo (k + 1) bi bv t from rfl]
    split_ifs
    · have := ih (k + 1) k v (by omega)
      simp only [List.length_cons]
      omega
    · have := ih (k + 1) bi bv (by omega)
      simp only [List.length_cons]
      omega

theorem argmaxVv_lt (l : List ℚ) (h : l ≠ []) : (argmaxVv l).1 < l.length := by
  cases l with
  | nil => exact absurd rfl h
  | cons v t =>
    have := argmaxGo_lt t 1 0 v (by omega)
    simp only [argmaxVv, List.length_cons]
    omega

/-- Setting slot `n` to a pair with the same box (only its `vv` score
changes) keeps the partition. -/
theorem partition_set_same (bs : List (Box × ℚ)) (n : ℕ) (hn : n < bs.length) (q : ℚ)
    (hpart : BoxesPartition (bs.map Prod.fst)) :
    BoxesPartition ((bs.set n ((bs.getD n default).1, q)).map Prod.fst) := by
  obtain ⟨hwf, hcount⟩ := hpart
  rw [List.map_set]
  dsimp only
  constructor
  · intro b hb
    rcases List.mem_or_eq_of_mem_set hb with hmem | heq
    · exact hwf b hmem
    · rw [heq]
      exact hwf _ (getD_mem_map_fst bs n hn)
  · intro c hc
    have haux := countP_set_aux (fun b => decide (c ∈ cells b)) (bs.map Prod.fst) n
      ((bs.getD n default).1) (by simpa using hn)
    rw [getD_map_fst bs n hn] at haux
    have := hcount c hc
    omega

/-- Replacing slot `n` by the first half of a successful `Cut` and appending
the second half keeps the partition. -/
theorem partition_split (M : Moments) (bs : List (Box × ℚ)) (n : ℕ)
    (hn : n < bs.length) (b1 b2 : Box) (q1 q2 : ℚ)
    (hcut : Cut M (bs.getD n default).1 = some (b1, b2))
    (hpart : BoxesPartition (bs.map Prod.fst)) :
    BoxesPartition ((bs.set n (b1, q1) ++ [(b2, q2)]).map Prod.fst) := by
  obtain ⟨hwf, hcount⟩ := hpart
  obtain ⟨hiff, hdisj, hwf12, _, _⟩ := cut_spec M _ b1 b2 hcut
  have hwfold : wfBox (bs.getD n default).1 := hwf _ (getD_mem_map_fst bs n hn)
  obtain ⟨hwf1, hwf2⟩ := hwf12 hwfold
  rw [List.map_append, List.map_set]
  dsimp only
  constructor
  · intro b hb
    rcases List.mem_append.mp hb with hb | hb
    · rcases List.mem_or_eq_of_mem_set hb with hmem | heq
      · exact hwf b hmem
      · rw [heq]
        exact hwf1
    · simp only [List.map_cons, List.map_nil, List.mem_singleton] at hb
      rw [hb]
      exact hwf2
  · intro c hc
    rw [List.countP_append]
    have haux := countP_set_aux (fun b => decide (c ∈ cells b)) (bs.map Prod.fst) n
      b1 (by simpa using hn)
    rw [getD_map_fst bs n hn] at haux
    have hone := hcount c hc
    have hsingle : (([(b2, q2)].map Prod.fst).countP (fun b => decide (c ∈ cells b)))
        = if c ∈ cells b2 then 1 else 0 := by
      simp [List.countP_cons]
    have hsum : (if c ∈ cells b1 then 1 else 0) + (if c ∈ cells b2 then 1 else 0)
        = if c ∈ cells (bs.getD n default).1 then (1 : ℕ) else 0 := by
      by_cases h1 : c ∈ cells b1
      · have h2 : ¬ c ∈ cells b2 := fun hh => hdisj c ⟨h1, hh⟩
        have ho : c ∈ cells (bs.getD n default).1 := (hiff c).mp (Or.inl h1)
        rw [if_pos h1, if_neg h2, if_pos ho]
      · by_cases h2 : c ∈ cells b2
        · have ho : c ∈ cells (bs.getD n default).1 := (hiff c).mp (Or.inr h2)
          rw [if_neg h1, if_pos h2, if_pos ho]
        · have ho : ¬ c ∈ cells (bs.getD n default).1 := by
            intro hh
            rcases (hiff c).mpr hh with h | h
            · exact h1 h
            · exact h2 h
          rw [if_neg h1, if_neg h2, if_neg ho]
    rw [hsingle]
    have e1 : (if (fun b => decide (c ∈ cells b)) b1 = true then 1 else 0)
        = if c ∈ cells b1 then (1 : ℕ) else 0 := by
      by_cases h1 : c ∈ cells b1 <;> simp [h1]
    have e2 : (if (fun b => decide (c ∈ cells b)) ((bs.getD n default).1) = true
        then 1 else 0)
        = if c ∈ cells (bs.getD n default).1 then (1 : ℕ) else 0 := by
      by_cases h1 : c ∈ cells (bs.getD n default).1 <;> simp [h1]
    rw [e1, e2] at haux
    omega

/-- The split loop of `genpal` preserves the partition invariant, whatever
the moment tables are. -/
theorem genpalLoop_inv (M : Moments) : ∀ (fuel : ℕ) (bs : List (Box × ℚ)) (n : ℕ),
    BoxesPartition (bs.map Prod.fst) → n < bs.length →
    BoxesPartition ((genpalLoop M fuel bs n).map Prod.fst) := by
  intro fuel
  induction fuel with
  | zero =>
    intro bs n h _
    exact h
  | succ f ih =>
    intro bs n hpart hn
    rw [genpalLoop]
    by_cases hlen : bs.length < 256
    · rw [if_pos hlen]
      rcases hcut : Cut M (bs.getD n default).1 with _ | ⟨b1, b2⟩
      · simp only []
        have hpart2 := partition_set_same bs n hn 0 hpart
        have hlen2 : (bs.set n ((bs.getD n default).1, 0)).length = bs.length :=
          List.length_set bs n _
        split_ifs
        · exact hpart2
        · apply ih _ _ hpart2
          have hne : (bs.set n ((bs.getD n default).1, 0)).map Prod.snd ≠ [] := by
            intro hem
            have := congrArg List.length hem
            simp only [List.length_map, List.length_nil, hlen2] at this
            omega
          have := argmaxVv_lt _ hne
          simpa [hlen2] using this
      · simp only []
        have hpart2 := partition_split M bs n hn b1 b2 (vvOf M b1) (vvOf M b2) hcut hpart
        have hlen2 : (bs.set n (b1, vvOf M b1) ++ [(b2, vvOf M b2)]).length
            = bs.length + 1 := by
          simp [List.length_set]
        split_ifs
        · exact hpart2
        · apply ih _ _ hpart2
          have hne : (bs.set n (b1, vvOf M b1) ++ [(b2, vvOf M b2)]).map Prod.snd ≠ [] := by
            intro hem
            have := congrArg List.length hem
            simp only [List.length_map, List.length_nil, hlen2] at this
            omega
          have := argmaxVv_lt _ hne
          simpa [hlen2] using this
    · rw [if_neg hlen]
      exact hpart

theorem initBox_partition : BoxesPartition [initBox] := by
  constructor
  · intro b hb
    simp only [List.mem_singleton] at hb
    rw [hb]
    simp only [wfBox, initBox]
    omega
  · intro c hc
    have : c ∈ cells initBox := hc
    simp [List.countP_cons, this]

end Genland

namespace Genland

theorem genpalBoxes_partition (ps : List ℕ) (fuel : ℕ) :
    BoxesPartition (genpalBoxes ps fuel) := by
  unfold genpalBoxes
  apply genpalLoop_inv
  · have h0 : ([((initBox : Box), (0 : ℚ))]).map Prod.fst = [initBox] := rfl
    rw [h0]
    exact initBox_partition
  · simp

/-- Claim C8: at every point during the split loop (i.e. after any number of
iterations, over arbitrary moment tables) the current boxes are a partition
of the full quantized color cube — they cover it and no two overlap — and
every successful `Cut` hands back both boxes with their `vol` fields
recomputed as `(r1-r0)*(g1-g0)*(b1-b0)`. -/
theorem c8_partition_invariant (M : Moments) (fuel : ℕ) :
    BoxesPartition ((genpalLoop M fuel [(initBox, 0)] 0).map Prod.fst) ∧
    (∀ s b1 b2 : Box, Cut M s = some (b1, b2) →
      b1.vol = ((b1.r1 : ℤ) - b1.r0) * ((b1.g1 : ℤ) - b1.g0) * ((b1.b1 : ℤ) - b1.b0) ∧
      b2.vol = ((b2.r1 : ℤ) - b2.r0) * ((b2.g1 : ℤ) - b2.g0) * ((b2.b1 : ℤ) - b2.b0)) := by
  constructor
  · apply genpalLoop_inv
    · have h0 : ([((initBox : Box), (0 : ℚ))]).map Prod.fst = [initBox] := rfl
      rw [h0]
      exact initBox_partition
    · simp
  · intro s b1 b2 h
    have hs := cut_spec M s b1 b2 h
    exact ⟨hs.2.2.2.1, hs.2.2.2.2⟩

/-- Claim C4: after any histogram accumulation and any number of split-loop
iterations, the box pixel counts `Vol(box, wt)` of the current boxes sum to
the total number of pixels fed to the histogram; in particular this holds
for the final boxes of the palette build. -/
theorem c4_quantizer_conservation (ps : List ℕ) (fuel : ℕ) :
    ((genpalBoxes ps fuel).map (fun b => Vol b (M3d (Hist3dWt ps)))).sum
      = (ps.length : ℤ) := by
  have hz : ∀ g b, Hist3dWt ps 0 g b = 0 := by
    intro g b
    unfold Hist3dWt histFold
    exact histFold_zero _ ps _ (fun _ _ => rfl) g b
  rw [boxes_vol_sum (Hist3dWt ps) hz _ (genpalBoxes_partition ps fuel)]
  exact hist3dWt_total ps

end Genland

namespace Genland

/-- A two-cell histogram's moment tables in closed form: one pixel of
r-channel mass 255 in cell (1,1,1) and one of mass 8 in cell (2,1,1); the g/b
moment tables are zero.  Used to exhibit a concrete successful `Cut`. -/
def wtProbe : Tbl := fun r g b =>
  ((if 1 ≤ r then 1 else 0) + (if 2 ≤ r then 1 else 0))
    * (if 1 ≤ g then 1 else 0) * (if 1 ≤ b then 1 else 0)

def mrProbe : Tbl := fun r g b =>
  ((if 1 ≤ r then 255 else 0) + (if 2 ≤ r then 8 else 0))
    * (if 1 ≤ g then 1 else 0) * (if 1 ≤ b then 1 else 0)

def probeMoments : Moments :=
  ⟨mrProbe, fun _ _ _ => 0, fun _ _ _ => 0, wtProbe, fun _ _ _ => 0⟩

theorem c8_witness :
    Cut probeMoments initBox
      = some (⟨0, 1, 0, 32, 0, 32, 1024⟩, ⟨1, 32, 0, 32, 0, 32, 31744⟩) ∧
    BoxesPartition ((genpalLoop probeMoments 0 [(initBox, 0)] 0).map Prod.fst) ∧
    (⟨0, 1, 0, 32, 0, 32, (1024 : ℤ)⟩ : Box).vol
      = ((1 : ℤ) - 0) * ((32 : ℤ) - 0) * ((32 : ℤ) - 0) := by
  have hcut : Cut probeMoments initBox
      = some (⟨0, 1, 0, 32, 0, 32, 1024⟩, ⟨1, 32, 0, 32, 0, 32, 31744⟩) := by
    norm_num [Cut, Maximize, Bot, Top, Vol, mkCut, volOf, probeMoments, wtProbe,
      mrProbe, initBox, List.range']
  exact ⟨hcut, (c8_partition_invariant probeMoments 0).1,
    ((c8_partition_invariant probeMoments 0).2 initBox _ _ hcut).1⟩

end Genland

namespace Genland

/-- Claim C10: in the palette finalization, a final box with zero accumulated
pixel count gets the null palette entry 0 with the mean-color division
guarded away, and a box with nonzero count gets the packed count-weighted
mean of its accumulated channel sums (C `long` division, truncating). -/
theorem c10_zero_weight_box (ps : List ℕ) (fuel k : ℕ)
    (hk : k < (genpalBoxes ps fuel).length) :
    (Vol ((genpalBoxes ps fuel).getD k default) (M3d (Hist3dWt ps)) = 0 →
      (genpalPal ps fuel).getD k 0 = 0) ∧
    (Vol ((genpalBoxes ps fuel).getD k default) (M3d (Hist3dWt ps)) ≠ 0 →
      (genpalPal ps fuel).getD k 0 =
        Int.tdiv
            (∑ c ∈ cells ((genpalBoxes ps fuel).getD k default),
              Hist3dMr ps c.1 c.2.1 c.2.2)
            (∑ c ∈ cells ((genpalBoxes ps fuel).getD k default),
              Hist3dWt ps c.1 c.2.1 c.2.2) * 65536
          + Int.tdiv
              (∑ c ∈ cells ((genpalBoxes ps fuel).getD k default),
                Hist3dMg ps c.1 c.2.1 c.2.2)
              (∑ c ∈ cells ((genpalBoxes ps fuel).getD k default),
                Hist3dWt ps c.1 c.2.1 c.2.2) * 256
          + Int.tdiv
              (∑ c ∈ cells ((genpalBoxes ps fuel).getD k default),
                Hist3dMb ps c.1 c.2.1 c.2.2)
              (∑ c ∈ cells ((genpalBoxes ps fuel).getD k default),
                Hist3dWt ps c.1 c.2.1 c.2.2)) := by
  have hb : (genpalBoxes ps fuel).getD k default ∈ genpalBoxes ps fuel := by
    rw [List.getD_eq_getElem _ _ hk]
    exact List.getElem_mem hk
  have hwfb : wfBox ((genpalBoxes ps fuel).getD k default) :=
    (genpalBoxes_partition ps fuel).1 _ hb
  have hzWt : ∀ g b, Hist3dWt ps 0 g b = 0 := by
    intro g b
    unfold Hist3dWt histFold
    exact histFold_zero _ ps _ (fun _ _ => rfl) g b
  have hzMr : ∀ g b, Hist3dMr ps 0 g b = 0 := by
    intro g b
    unfold Hist3dMr histFold
    exact histFold_zero _ ps _ (fun _ _ => rfl) g b
  have hzMg : ∀ g b, Hist3dMg ps 0 g b = 0 := by
    intro g b
    unfold Hist3dMg histFold
    exact histFold_zero _ ps _ (fun _ _ => rfl) g b
  have hzMb : ∀ g b, Hist3dMb ps 0 g b = 0 := by
    intro g b
    unfold Hist3dMb histFold
    exact histFold_zero _ ps _ (fun _ _ => rfl) g b
  have hklen : k < ((genpalBoxes ps fuel).map (fun b =>
      if Vol b (momentsOf ps).wtT = 0 then (0 : ℤ)
      else Int.tdiv (Vol b (momentsOf ps).mrT) (Vol b (momentsOf ps).wtT) * 65536
        + Int.tdiv (Vol b (momentsOf ps).mgT) (Vol b (momentsOf ps).wtT) * 256
        + Int.tdiv (Vol b (momentsOf ps).mbT) (Vol b (momentsOf ps).wtT))).length := by
    simpa using hk
  have hpal : (genpalPal ps fuel).getD k 0 =
      (if Vol ((genpalBoxes ps fuel).getD k default) (momentsOf ps).wtT = 0 then (0 : ℤ)
      else Int.tdiv (Vol ((genpalBoxes ps fuel).getD k default) (momentsOf ps).mrT)
            (Vol ((genpalBoxes ps fuel).getD k default) (momentsOf ps).wtT) * 65536
        + Int.tdiv (Vol ((genpalBoxes ps fuel).getD k default) (momentsOf ps).mgT)
            (Vol ((genpalBoxes ps fuel).getD k default) (momentsOf ps).wtT) * 256
        + Int.tdiv (Vol ((genpalBoxes ps fuel).getD k default) (momentsOf ps).mbT)
            (Vol ((genpalBoxes ps fuel).getD k default) (momentsOf ps).wtT)) := by
    unfold genpalPal
    simp only []
    rw [List.getD_eq_getElem _ _ hklen, List.getElem_map,
      ← List.getD_eq_getElem _ _ hk]
  have hproj : (momentsOf ps).wtT = M3d (Hist3dWt ps) := rfl
  constructor
  · intro hV
    rw [hpal, hproj, if_pos hV]
  · intro hV
    rw [hpal, hproj, if_neg hV]
    rw [show (momentsOf ps).mrT = M3d (Hist3dMr ps) from rfl,
      show (momentsOf ps).mgT = M3d (Hist3dMg ps) from rfl,
      show (momentsOf ps).mbT = M3d (Hist3dMb ps) from rfl,
      Vol_M3d _ hzMr _ hwfb, Vol_M3d _ hzMg _ hwfb, Vol_M3d _ hzMb _ hwfb,
      Vol_M3d _ hzWt _ hwfb]

set_option maxRecDepth 4000000 in
theorem c10_witness :
    (0 : ℕ) < (genpalBoxes [] 0).length ∧
    Vol ((genpalBoxes [] 0).getD 0 default) (M3d (Hist3dWt [])) = 0 ∧
    (genpalPal [] 0).getD 0 0 = 0 := by
  have h1 : (0 : ℕ) < (genpalBoxes [] 0).length := by decide
  have h2 : Vol ((genpalBoxes [] 0).getD 0 default) (M3d (Hist3dWt [])) = 0 := by decide
  exact ⟨h1, h2, (c10_zero_weight_box [] 0 0 h1).1 h2⟩

end Genland
